import Mathlib

/-!
Verification of the RFC 6901 JSON Pointer core of cvi_json-c
(src/cvi_mpi/modules/bin/prebuilt/include/cvi_json-c/cvi_json_pointer.h).

The repository ships only the public header; the companion implementation
and the cvi_json_object document model are not under src/.  Definitions
below that embed that missing code are modelled from the specification
(spec.md) and from the header's documentation comments, and are marked
as such in their doc comments.
-/

/-- Modelled from the spec: the document node of the missing cvi_json_object
model (spec.md section 3) — a tagged union over null, boolean, number,
string, array-of-node and ordered mapping from string to node. -/
inductive JNode where
  | null
  | bool (b : Bool)
  | num (n : Int)
  | str (s : String)
  | arr (elems : List JNode)
  | obj (members : List (String × JNode))

mutual

def jnodeDecEq : (a b : JNode) → Decidable (a = b)
  | .null, .null => isTrue rfl
  | .bool a, .bool b =>
      match decEq a b with
      | isTrue h => isTrue (by rw [h])
      | isFalse h => isFalse (by intro hh; cases hh; exact h rfl)
  | .num a, .num b =>
      match decEq a b with
      | isTrue h => isTrue (by rw [h])
      | isFalse h => isFalse (by intro hh; cases hh; exact h rfl)
  | .str a, .str b =>
      match decEq a b with
      | isTrue h => isTrue (by rw [h])
      | isFalse h => isFalse (by intro hh; cases hh; exact h rfl)
  | .arr xs, .arr ys =>
      match jnodeListDecEq xs ys with
      | isTrue h => isTrue (by rw [h])
      | isFalse h => isFalse (by intro hh; cases hh; exact h rfl)
  | .obj xs, .obj ys =>
      match jnodeMembersDecEq xs ys with
      | isTrue h => isTrue (by rw [h])
      | isFalse h => isFalse (by intro hh; cases hh; exact h rfl)
  | .null, .bool _ => isFalse (fun h => JNode.noConfusion h)
  | .null, .num _ => isFalse (fun h => JNode.noConfusion h)
  | .null, .str _ => isFalse (fun h => JNode.noConfusion h)
  | .null, .arr _ => isFalse (fun h => JNode.noConfusion h)
  | .null, .obj _ => isFalse (fun h => JNode.noConfusion h)
  | .bool _, .null => isFalse (fun h => JNode.noConfusion h)
  | .bool _, .num _ => isFalse (fun h => JNode.noConfusion h)
  | .bool _, .str _ => isFalse (fun h => JNode.noConfusion h)
  | .bool _, .arr _ => isFalse (fun h => JNode.noConfusion h)
  | .bool _, .obj _ => isFalse (fun h => JNode.noConfusion h)
  | .num _, .null => isFalse (fun h => JNode.noConfusion h)
  | .num _, .bool _ => isFalse (fun h => JNode.noConfusion h)
  | .num _, .str _ => isFalse (fun h => JNode.noConfusion h)
  | .num _, .arr _ => isFalse (fun h => JNode.noConfusion h)
  | .num _, .obj _ => isFalse (fun h => JNode.noConfusion h)
  | .str _, .null => isFalse (fun h => JNode.noConfusion h)
  | .str _, .bool _ => isFalse (fun h => JNode.noConfusion h)
  | .str _, .num _ => isFalse (fun h => JNode.noConfusion h)
  | .str _, .arr _ => isFalse (fun h => JNode.noConfusion h)
  | .str _, .obj _ => isFalse (fun h => JNode.noConfusion h)
  | .arr _, .null => isFalse (fun h => JNode.noConfusion h)
  | .arr _, .bool _ => isFalse (fun h => JNode.noConfusion h)
  | .arr _, .num _ => isFalse (fun h => JNode.noConfusion h)
  | .arr _, .str _ => isFalse (fun h => JNode.noConfusion h)
  | .arr _, .obj _ => isFalse (fun h => JNode.noConfusion h)
  | .obj _, .null => isFalse (fun h => JNode.noConfusion h)
  | .obj _, .bool _ => isFalse (fun h => JNode.noConfusion h)
  | .obj _, .num _ => isFalse (fun h => JNode.noConfusion h)
  | .obj _, .str _ => isFalse (fun h => JNode.noConfusion h)
  | .obj _, .arr _ => isFalse (fun h => JNode.noConfusion h)

def jnodeListDecEq : (xs ys : List JNode) → Decidable (xs = ys)
  | [], [] => isTrue rfl
  | [], _ :: _ => isFalse (fun h => List.noConfusion h)
  | _ :: _, [] => isFalse (fun h => List.noConfusion h)
  | x :: xs, y :: ys =>
      match jnodeDecEq x y with
      | isTrue h1 =>
          match jnodeListDecEq xs ys with
          | isTrue h2 => isTrue (by rw [h1, h2])
          | isFalse h2 => isFalse (by intro hh; injection hh; exact h2 (by assumption))
      | isFalse h1 => isFalse (by intro hh; injection hh; exact h1 (by assumption))

def jnodeMembersDecEq : (xs ys : List (String × JNode)) → Decidable (xs = ys)
  | [], [] => isTrue rfl
  | [], _ :: _ => isFalse (fun h => List.noConfusion h)
  | _ :: _, [] => isFalse (fun h => List.noConfusion h)
  | (k1, v1) :: xs, (k2, v2) :: ys =>
      match decEq k1 k2 with
      | isTrue hk =>
          match jnodeDecEq v1 v2 with
          | isTrue hv =>
              match jnodeMembersDecEq xs ys with
              | isTrue ht => isTrue (by rw [hk, hv, ht])
              | isFalse ht => isFalse (by intro hh; injection hh; exact ht (by assumption))
          | isFalse hv =>
              isFalse (by
                intro hh
                injection hh with hp _
                injection hp with _ hv2
                exact hv hv2)
      | isFalse hk =>
          isFalse (by
            intro hh
            injection hh with hp _
            injection hp with hk2 _
            exact hk hk2)

end

instance : DecidableEq JNode := jnodeDecEq

/-- Modelled from the spec: the error kinds of the missing resolver
implementation (spec.md section 7). -/
inductive JErr where
  | malformedPointer
  | notFound
  | invalidParent
  | badIndex
  | formatError
deriving DecidableEq

/-- Modelled from the spec: the classification of an array-index token by
the missing Array-Index Validator (spec.md section 4.2). -/
inductive IndexOutcome where
  | existing (i : Nat)
  | append
  | outOfRange (i : Nat)
  | malformed
deriving DecidableEq

/-- A reference-count release event performed by the missing set
implementation: either the root slot's outer reference, or a displaced
child's reference (spec.md sections 3 and 4.3). -/
inductive Release where
  | rootSlot (old : JNode)
  | childSlot (old : JNode)
deriving DecidableEq

/-- Result of a set call: the tree after the call (unchanged on failure),
the list of reference releases performed, and the error, if any. -/
structure SetResult where
  tree : JNode
  released : List Release
  err : Option JErr
deriving DecidableEq

instance : DecidableEq (Except JErr JNode) := fun a b =>
  match a, b with
  | .ok x, .ok y =>
      if h : x = y then isTrue (by rw [h])
      else isFalse (by intro hh; cases hh; exact h rfl)
  | .error x, .error y =>
      if h : x = y then isTrue (by rw [h])
      else isFalse (by intro hh; cases hh; exact h rfl)
  | .ok _, .error _ => isFalse (fun h => Except.noConfusion h)
  | .error _, .ok _ => isFalse (fun h => Except.noConfusion h)

/-- Modelled from the spec: get_member of the missing document model
(spec.md section 6) — look a key up in an ordered mapping. -/
def jlookup : List (String × JNode) → String → Option JNode
  | [], _ => none
  | (k, w) :: rest, key => if k = key then some w else jlookup rest key

/-- Modelled from the spec: set_member of the missing document model
(spec.md sections 4.3 and 6) — replace an existing member in place,
preserving insertion order, or insert a new member at the end. -/
def updateMember : List (String × JNode) → String → JNode → List (String × JNode)
  | [], key, v => [(key, v)]
  | (k, w) :: rest, key, v =>
      if k = key then (key, v) :: rest else (k, w) :: updateMember rest key v

/-- The platform's index range bound (a 64-bit size_t), used by the
Array-Index Validator's overflow rule (spec.md section 4.2). -/
def USIZE_MAX : Nat := 2 ^ 64 - 1

/-- Whether a character is a decimal digit. -/
def isDigitCh (c : Char) : Bool := 48 ≤ c.toNat && c.toNat ≤ 57

/-- Numeric value of a decimal digit character. -/
def digitVal (c : Char) : Nat := c.toNat - 48

/-- The decimal digit character of a value below ten. -/
def digitCh (d : Nat) : Char :=
  if d = 0 then '0'
  else if d = 1 then '1'
  else if d = 2 then '2'
  else if d = 3 then '3'
  else if d = 4 then '4'
  else if d = 5 then '5'
  else if d = 6 then '6'
  else if d = 7 then '7'
  else if d = 8 then '8'
  else '9'

/-- Value denoted by a list of decimal digit characters. -/
def digitsVal (cs : List Char) : Nat := cs.foldl (fun a c => a * 10 + digitVal c) 0

/-- Modelled from the spec: the missing Array-Index Validator
(spec.md section 4.2).  Classifies a token against an array length:
the literal "-" is Append; an all-digit token without a redundant
leading zero and within the platform index range denotes Existing(i)
when i < n and OutOfRange otherwise; everything else is Malformed. -/
def parse_index (tok : String) (n : Nat) : IndexOutcome :=
  if tok = "-" then .append
  else if tok.toList.isEmpty then .malformed
  else if ¬ (tok.toList.all isDigitCh) then .malformed
  else if 1 < tok.toList.length ∧ tok.toList.head? = some '0' then .malformed
  else if USIZE_MAX < digitsVal tok.toList then .malformed
  else if digitsVal tok.toList < n then .existing (digitsVal tok.toList)
  else .outOfRange (digitsVal tok.toList)

mutual

/-- Modelled from the spec: the missing Path Tokenizer's per-segment
unescaping (spec.md section 4.1) — one left-to-right pass replacing
the escape pair tilde-one by a slash and tilde-zero by a tilde, failing
on a tilde followed by anything else or a trailing tilde. -/
def unescapeToken : List Char → Option (List Char)
  | [] => some []
  | c :: rest =>
      if c = '~' then unescTail rest
      else (unescapeToken rest).map (fun r => c :: r)

/-- Modelled from the spec: the tokenizer's handling of the character
after a tilde (spec.md section 4.1) — zero decodes a tilde, one
decodes a slash, anything else (or nothing) is malformed. -/
def unescTail : List Char → Option (List Char)
  | [] => none
  | d :: rest2 =>
      if d = '0' then (unescapeToken rest2).map (fun r => '~' :: r)
      else if d = '1' then (unescapeToken rest2).map (fun r => '/' :: r)
      else none

end

/-- Modelled from the spec: the missing Path Tokenizer's splitting of the
text after the leading slash into slash-separated segments
(spec.md section 4.1). -/
def splitSegs : List Char → List (List Char)
  | [] => [[]]
  | c :: rest =>
      if c = '/' then [] :: splitSegs rest
      else
        match splitSegs rest with
        | s :: ss => (c :: s) :: ss
        | [] => [[c]]

/-- Modelled from the spec: the missing Path Tokenizer (spec.md section
4.1).  The empty string denotes zero tokens; otherwise the path must
start with a slash; the remainder is split on slashes and each segment
unescaped. -/
def tokenize (path : String) : Option (List String) :=
  match path.toList with
  | [] => some []
  | '/' :: rest => (splitSegs rest).mapM (fun seg => (unescapeToken seg).map String.mk)
  | _ => none

/-- Modelled from the spec: the missing Resolver's get-walk
(spec.md section 4.3) — descend one token at a time, mapping keys
through mappings and validated indices through arrays; every failure
to descend is NotFound. -/
def getWalk : JNode → List String → Except JErr JNode
  | doc, [] => .ok doc
  | .obj ms, tok :: rest =>
      match jlookup ms tok with
      | some child => getWalk child rest
      | none => .error .notFound
  | .arr xs, tok :: rest =>
      match parse_index tok xs.length with
      | .existing i =>
          match xs[i]? with
          | some child => getWalk child rest
          | none => .error .notFound
      | _ => .error .notFound
  | _, _ :: _ => .error .notFound

/-- Modelled from the spec: the public pointer_get operation
(spec.md sections 4.3 and 6) — tokenize, then get-walk. -/
def pointer_get (doc : JNode) (path : String) : Except JErr JNode :=
  match tokenize path with
  | some toks => getWalk doc toks
  | none => .error .malformedPointer

/-- Modelled from the spec: application of the last token of a set path
to the parent container (spec.md section 4.3).  A mapping member is
replaced (releasing the displaced child once) or inserted; an array
element at an existing index is replaced (releasing the displaced
child once) and the append token pushes a new last element; a bad
index or a non-container parent fails with no mutation and no
release. -/
def setLast (parent : JNode) (tok : String) (v : JNode) : SetResult :=
  match parent with
  | .obj ms =>
      ⟨.obj (updateMember ms tok v),
        (match jlookup ms tok with
          | some old => [.childSlot old]
          | none => []),
        none⟩
  | .arr xs =>
      match parse_index tok xs.length with
      | .existing i =>
          match xs[i]? with
          | some old => ⟨.arr (xs.set i v), [.childSlot old], none⟩
          | none => ⟨.arr xs, [], some .notFound⟩
      | .append => ⟨.arr (xs ++ [v]), [], none⟩
      | _ => ⟨.arr xs, [], some .badIndex⟩
  | other => ⟨other, [], some .invalidParent⟩

/-- Modelled from the spec: the missing Resolver's assign
(spec.md section 4.3).  Zero tokens replace the root, releasing the
root slot's outer reference; otherwise all tokens but the last are
resolved by the get-walk semantics and the last token mutates the
parent container; on any failure the tree is unchanged and nothing
is released. -/
def assign : JNode → List String → JNode → SetResult
  | doc, [], v => ⟨v, [.rootSlot doc], none⟩
  | doc, [tok], v => setLast doc tok v
  | doc, tok :: rest, v =>
      match doc with
      | .obj ms =>
          match jlookup ms tok with
          | some child =>
              match assign child rest v with
              | ⟨t, rels, none⟩ => ⟨.obj (updateMember ms tok t), rels, none⟩
              | ⟨_, _, some e⟩ => ⟨.obj ms, [], some e⟩
          | none => ⟨.obj ms, [], some .notFound⟩
      | .arr xs =>
          match parse_index tok xs.length with
          | .existing i =>
              match xs[i]? with
              | some child =>
                  match assign child rest v with
                  | ⟨t, rels, none⟩ => ⟨.arr (xs.set i t), rels, none⟩
                  | ⟨_, _, some e⟩ => ⟨.arr xs, [], some e⟩
              | none => ⟨.arr xs, [], some .notFound⟩
          | _ => ⟨.arr xs, [], some .notFound⟩
      | other => ⟨other, [], some .notFound⟩

/-- Modelled from the spec: the public pointer_set operation
(spec.md sections 4.3 and 6) — tokenize, then assign; a malformed
path fails before any mutation. -/
def pointer_set (doc : JNode) (path : String) (v : JNode) : SetResult :=
  match tokenize path with
  | some toks => assign doc toks v
  | none => ⟨doc, [], some .malformedPointer⟩

/-- Whether a node is an array. -/
def JNode.isArr : JNode → Bool
  | .arr _ => true
  | _ => false

/-- Whether a node is an ordered mapping. -/
def JNode.isObj : JNode → Bool
  | .obj _ => true
  | _ => false

/-- Modelled from the spec: escaping of a reference token for inclusion
in a pointer (RFC 6901 / spec.md section 8) — a tilde becomes
tilde-zero and a slash becomes tilde-one. -/
def escapeChars : List Char → List Char
  | [] => []
  | c :: rest =>
      if c = '~' then '~' :: '0' :: escapeChars rest
      else if c = '/' then '~' :: '1' :: escapeChars rest
      else c :: escapeChars rest

/-- Escaping of a reference token, on strings. -/
def escapeToken (s : String) : String := String.mk (escapeChars s.toList)

/-- Canonical decimal digit spelling of a natural number. -/
def natDigits (n : Nat) : List Char :=
  if _h : n < 10 then [digitCh n]
  else natDigits (n / 10) ++ [digitCh (n % 10)]
decreasing_by exact Nat.div_lt_self (by omega) (by omega)

/-- One step of manual indexing: an object member key or an array index. -/
inductive Step where
  | key (k : String)
  | idx (i : Nat)
deriving DecidableEq

/-- Manual indexing through mappings and arrays along a key/index
sequence (spec.md section 8). -/
def manualIndex : JNode → List Step → Option JNode
  | doc, [] => some doc
  | .obj ms, .key k :: rest =>
      match jlookup ms k with
      | some child => manualIndex child rest
      | none => none
  | .arr xs, .idx i :: rest =>
      match xs[i]? with
      | some child => manualIndex child rest
      | none => none
  | _, _ :: _ => none

/-- The pointer spelling of one manual step: an escaped key, or the
canonical decimal spelling of an index. -/
def stepToken : Step → String
  | .key k => escapeToken k
  | .idx i => String.mk (natDigits i)

/-- The character sequence of the pointer spelling of a key/index
sequence: a slash before each token. -/
def pathChars : List Step → List Char
  | [] => []
  | s :: rest => '/' :: ((stepToken s).toList ++ pathChars rest)

/-- The pointer spelling of a key/index sequence. -/
def path_of (K : List Step) : String := String.mk (pathChars K)

/-- A variadic argument consumed by the formatter. -/
inductive FmtArg where
  | num (n : Int)
  | str (s : String)
deriving DecidableEq

/-- Sign-and-digits decimal spelling of an integer. -/
def intChars (n : Int) : List Char :=
  if n < 0 then '-' :: natDigits n.natAbs else natDigits n.toNat

mutual

/-- Modelled from the spec: the consumed external printf-style formatter
(spec.md sections 4.4 and 6; the header documents that paths take
printf-type arguments).  Renders a format string against an argument
list: a doubled percent renders one percent, percent-d consumes a
numeric argument and percent-s a string argument; any other use of
percent, or an argument-count/type mismatch, is a formatting
failure.  Surplus arguments are ignored, as in printf. -/
def renderFmt : List Char → List FmtArg → Option (List Char)
  | [], _ => some []
  | c :: rest, args =>
      if c = '%' then renderSpec rest args
      else (renderFmt rest args).map (fun r => c :: r)

/-- Modelled from the spec: the formatter's handling of the character
after a percent — a second percent renders a literal percent,
d consumes a numeric argument, s a string argument; anything else
(or a trailing percent, or a missing or mistyped argument) is a
formatting failure. -/
def renderSpec : List Char → List FmtArg → Option (List Char)
  | [], _ => none
  | d :: rest2, args =>
      if d = '%' then (renderFmt rest2 args).map (fun r => '%' :: r)
      else if d = 'd' then
        match args with
        | .num n :: args2 => (renderFmt rest2 args2).map (fun r => intChars n ++ r)
        | _ => none
      else if d = 's' then
        match args with
        | .str t :: args2 => (renderFmt rest2 args2).map (fun r => t.toList ++ r)
        | _ => none
      else none

end

/-- The public cvi_json_pointer_get of the header
(cvi_json_pointer.h lines 35-49): per its documentation, the path
string is itself treated as a printf-style format whose arguments
follow the res parameter; the rendered path is then resolved.  The
rendering step is the spec-modelled formatter. -/
def cvi_json_pointer_get (obj : JNode) (path : String) (args : List FmtArg) :
    Except JErr JNode :=
  match renderFmt path.toList args with
  | some cs => pointer_get obj (String.mk cs)
  | none => .error .formatError

/-- The public cvi_json_pointer_set of the header
(cvi_json_pointer.h lines 70-100): the path string is treated as a
printf-style format whose arguments follow the value parameter; the
rendered path is then assigned through. -/
def cvi_json_pointer_set (obj : JNode) (path : String) (value : JNode) (args : List FmtArg) :
    SetResult :=
  match renderFmt path.toList args with
  | some cs => pointer_set obj (String.mk cs) value
  | none => ⟨obj, [], some .formatError⟩

/-- The public cvi_json_pointer_getf of the header
(cvi_json_pointer.h lines 51-68): renders the format string and
arguments, then resolves the rendered path. -/
def cvi_json_pointer_getf (obj : JNode) (path_fmt : String) (args : List FmtArg) :
    Except JErr JNode :=
  match renderFmt path_fmt.toList args with
  | some cs => pointer_get obj (String.mk cs)
  | none => .error .formatError

/-- The public cvi_json_pointer_setf of the header
(cvi_json_pointer.h lines 102-118): renders the format string and
arguments, then assigns through the rendered path. -/
def cvi_json_pointer_setf (obj : JNode) (value : JNode) (path_fmt : String) (args : List FmtArg) :
    SetResult :=
  match renderFmt path_fmt.toList args with
  | some cs => pointer_set obj (String.mk cs) value
  | none => ⟨obj, [], some .formatError⟩

/-- Escaping of a literal percent for use in a printf-style path. -/
def escPercent : List Char → List Char
  | [] => []
  | c :: rest =>
      if c = '%' then '%' :: '%' :: escPercent rest
      else c :: escPercent rest

/-- The decoded reference token a manual step corresponds to after
tokenization: the raw key, or the decimal spelling of the index. -/
def stepString : Step → String
  | .key k => k
  | .idx i => String.mk (natDigits i)

/-- Rebuilding of a tree with the node reached by a token walk replaced
by a new sub-tree; used to state how assign rewires the spine of the
tree it mutates.  Where the walk cannot descend, the tree is returned
unchanged. -/
def spliceAt : JNode → List String → JNode → JNode
  | _, [], newSub => newSub
  | .obj ms, t :: ts, newSub =>
      match jlookup ms t with
      | some child => .obj (updateMember ms t (spliceAt child ts newSub))
      | none => .obj ms
  | .arr xs, t :: ts, newSub =>
      match parse_index t xs.length with
      | .existing i =>
          match xs[i]? with
          | some child => .arr (xs.set i (spliceAt child ts newSub))
          | none => .arr xs
      | _ => .arr xs
  | doc, _ :: _, _ => doc

/-- The split form of an assign with at least one token: walk to the
parent with the leading tokens, fail the same way the walk fails,
otherwise apply the last token to the parent and, on success, splice
the rewritten parent back along the walked spine. -/
def assignSplit (doc : JNode) (toks : List String) (tok : String) (v : JNode) : SetResult :=
  match getWalk doc toks with
  | .error e => ⟨doc, [], some e⟩
  | .ok p =>
      match (setLast p tok v).err with
      | some e => ⟨doc, [], some e⟩
      | none =>
          ⟨spliceAt doc toks (setLast p tok v).tree, (setLast p tok v).released, none⟩

example : tokenize "" = some [] := by decide
example : tokenize "/a/b" = some ["a", "b"] := by decide
example : tokenize "/a~1b" = some ["a/b"] := by decide
example : tokenize "/a~0" = some ["a~"] := by decide
example : tokenize "/a~2" = none := by decide
example : tokenize "a/b" = none := by decide
example : parse_index "0" 2 = .existing 0 := by decide
example : parse_index "-" 2 = .append := by decide
example : parse_index "01" 2 = .malformed := by decide
example : parse_index "5" 2 = .outOfRange 5 := by decide
example :
    pointer_get (.obj [("arr", .arr [.num 1, .num 2])]) "/arr/1" = .ok (.num 2) := by decide
example :
    (pointer_set (.obj [("arr", .arr [.num 1, .num 2])]) "/arr/-" (.num 3)).tree
      = .obj [("arr", .arr [.num 1, .num 2, .num 3])] := by decide

theorem isDigitCh_digitCh (d : Nat) (h : d < 10) : isDigitCh (digitCh d) = true := by
  interval_cases d <;> decide

theorem digitVal_digitCh (d : Nat) (h : d < 10) : digitVal (digitCh d) = d := by
  interval_cases d <;> decide

theorem digitCh_ne_zero (d : Nat) (h1 : d < 10) (h2 : d ≠ 0) : digitCh d ≠ '0' := by
  interval_cases d <;> first
  | exact absurd rfl h2
  | decide

theorem isDigitCh_ne (c : Char) (h : isDigitCh c = true) :
    c ≠ '/' ∧ c ≠ '~' ∧ c ≠ '-' ∧ c ≠ '%' := by
  refine ⟨?_, ?_, ?_, ?_⟩ <;> (intro he; subst he; exact absurd h (by decide))

theorem natDigits_ne_nil (n : Nat) : natDigits n ≠ [] := by
  rw [natDigits]
  split
  · simp
  · simp

theorem natDigits_all_digits (n : Nat) : ∀ c ∈ natDigits n, isDigitCh c = true := by
  induction n using Nat.strong_induction_on with
  | _ n ih =>
    rw [natDigits]
    split
    · next h =>
      intro c hc
      simp only [List.mem_singleton] at hc
      subst hc
      exact isDigitCh_digitCh n h
    · next h =>
      intro c hc
      rw [List.mem_append] at hc
      rcases hc with hc | hc
      · exact ih (n / 10) (Nat.div_lt_self (by omega) (by omega)) c hc
      · simp only [List.mem_singleton] at hc
        subst hc
        exact isDigitCh_digitCh (n % 10) (Nat.mod_lt _ (by omega))

theorem digitsVal_append (a : List Char) (c : Char) :
    digitsVal (a ++ [c]) = 10 * digitsVal a + digitVal c := by
  simp only [digitsVal, List.foldl_append, List.foldl]
  omega

theorem digitsVal_natDigits (n : Nat) : digitsVal (natDigits n) = n := by
  induction n using Nat.strong_induction_on with
  | _ n ih =>
    rw [natDigits]
    split
    · next h =>
      simp only [digitsVal, List.foldl]
      rw [digitVal_digitCh n h]
      omega
    · next h =>
      rw [digitsVal_append, ih (n / 10) (Nat.div_lt_self (by omega) (by omega)),
        digitVal_digitCh (n % 10) (Nat.mod_lt _ (by omega))]
      omega

theorem natDigits_head_ne_zero (n : Nat) (h : 0 < n) : (natDigits n).head? ≠ some '0' := by
  induction n using Nat.strong_induction_on with
  | _ n ih =>
    rw [natDigits]
    split
    · next h10 =>
      intro hc
      simp only [List.head?, Option.some.injEq] at hc
      exact digitCh_ne_zero n h10 (by omega) hc
    · next h10 =>
      have hlt : n / 10 < n := Nat.div_lt_self (by omega) (by omega)
      have hpos : 0 < n / 10 := by omega
      have hh := ih (n / 10) hlt hpos
      obtain ⟨x, xs, hx⟩ := List.exists_cons_of_ne_nil (natDigits_ne_nil (n / 10))
      rw [hx] at hh ⊢
      simp only [List.cons_append, List.head?] at hh ⊢
      exact hh

theorem natDigits_no_leading_zero (n : Nat) :
    ¬(1 < (natDigits n).length ∧ (natDigits n).head? = some '0') := by
  rintro ⟨hlen, hhead⟩
  by_cases h : 0 < n
  · exact natDigits_head_ne_zero n h hhead
  · have hz : n = 0 := by omega
    subst hz
    rw [natDigits] at hlen
    simp at hlen

theorem parse_index_natDigits (i n : Nat) (hle : i ≤ USIZE_MAX) :
    parse_index (String.mk (natDigits i)) n =
      if i < n then .existing i else .outOfRange i := by
  have hne : String.mk (natDigits i) ≠ "-" := by
    intro hcontra
    have hdata : natDigits i = ['-'] := congrArg String.data hcontra
    have hmem : '-' ∈ natDigits i := by
      rw [hdata]
      exact List.mem_singleton.mpr rfl
    exact absurd (natDigits_all_digits i '-' hmem) (by decide)
  have htl : (String.mk (natDigits i)).toList = natDigits i := rfl
  unfold parse_index
  rw [if_neg hne]
  rw [htl]
  rw [if_neg (by simp [natDigits_ne_nil i])]
  rw [if_neg (by simp only [List.all_eq_true]; intro h; exact h (natDigits_all_digits i))]
  rw [if_neg (natDigits_no_leading_zero i)]
  rw [digitsVal_natDigits]
  rw [if_neg (by omega)]

theorem unescape_escape (cs : List Char) : unescapeToken (escapeChars cs) = some cs := by
  induction cs with
  | nil => rfl
  | cons c rest ih =>
    by_cases h1 : c = '~'
    · subst h1
      simp [escapeChars, unescapeToken, unescTail, ih]
    · by_cases h2 : c = '/'
      · subst h2
        simp [escapeChars, unescapeToken, unescTail, h1, ih]
      · simp [escapeChars, h1, h2, unescapeToken, ih]

theorem unescape_no_tilde (cs : List Char) (h : ∀ c ∈ cs, c ≠ '~') :
    unescapeToken cs = some cs := by
  induction cs with
  | nil => rfl
  | cons c rest ih =>
    have hc : c ≠ '~' := h c (List.mem_cons_self c rest)
    have hr : ∀ c ∈ rest, c ≠ '~' := fun x hx => h x (List.mem_cons_of_mem c hx)
    simp [unescapeToken, hc, ih hr]

theorem escapeChars_no_slash (cs : List Char) : '/' ∉ escapeChars cs := by
  induction cs with
  | nil => simp [escapeChars]
  | cons c rest ih =>
    intro hmem
    rw [escapeChars] at hmem
    by_cases h1 : c = '~'
    · rw [if_pos h1] at hmem
      rcases List.mem_cons.mp hmem with h | hmem2
      · exact absurd h (by decide)
      · rcases List.mem_cons.mp hmem2 with h | hmem3
        · exact absurd h (by decide)
        · exact ih hmem3
    · rw [if_neg h1] at hmem
      by_cases h2 : c = '/'
      · rw [if_pos h2] at hmem
        rcases List.mem_cons.mp hmem with h | hmem2
        · exact absurd h (by decide)
        · rcases List.mem_cons.mp hmem2 with h | hmem3
          · exact absurd h (by decide)
          · exact ih hmem3
      · rw [if_neg h2] at hmem
        rcases List.mem_cons.mp hmem with h | hmem2
        · exact h2 h.symm
        · exact ih hmem2

theorem splitSegs_no_slash (a : List Char) (h : '/' ∉ a) : splitSegs a = [a] := by
  induction a with
  | nil => rfl
  | cons c rest ih =>
    have hc : c ≠ '/' := fun hh => h (hh ▸ List.mem_cons_self c rest)
    have hr : '/' ∉ rest := fun hh => h (List.mem_cons_of_mem c hh)
    simp [splitSegs, hc, ih hr]

theorem splitSegs_append_slash (a cs : List Char) (h : '/' ∉ a) :
    splitSegs (a ++ '/' :: cs) = a :: splitSegs cs := by
  induction a with
  | nil => simp [splitSegs]
  | cons c rest ih =>
    have hc : c ≠ '/' := fun hh => h (hh ▸ List.mem_cons_self c rest)
    have hr : '/' ∉ rest := fun hh => h (List.mem_cons_of_mem c hh)
    simp only [List.cons_append, splitSegs, if_neg hc, List.append_eq]
    rw [ih hr]

theorem jlookup_updateMember_self (ms : List (String × JNode)) (k : String) (v : JNode) :
    jlookup (updateMember ms k v) k = some v := by
  induction ms with
  | nil => simp [updateMember, jlookup]
  | cons kv rest ih =>
    obtain ⟨k1, v1⟩ := kv
    by_cases h : k1 = k
    · simp [updateMember, h, jlookup]
    · simp [updateMember, h, jlookup, ih]

theorem getWalk_append (a b : List String) (doc : JNode) :
    getWalk doc (a ++ b) =
      match getWalk doc a with
      | .ok m => getWalk m b
      | .error e => .error e := by
  induction a generalizing doc with
  | nil => simp [getWalk]
  | cons t ts ih =>
    cases doc with
    | obj ms =>
      simp only [List.cons_append, getWalk]
      cases h : jlookup ms t with
      | some child => simp [h, ih]
      | none => simp [h]
    | arr xs =>
      simp only [List.cons_append, getWalk]
      cases h : parse_index t xs.length with
      | existing i =>
        cases h2 : xs[i]? with
        | some child => simp [h, h2, ih]
        | none => simp [h, h2]
      | append => simp [h]
      | outOfRange j => simp [h]
      | malformed => simp [h]
    | null => simp [getWalk]
    | bool b1 => simp [getWalk]
    | num n1 => simp [getWalk]
    | str s1 => simp [getWalk]

theorem getWalk_error_notFound (toks : List String) (doc : JNode) (e : JErr)
    (h : getWalk doc toks = .error e) : e = .notFound := by
  induction toks generalizing doc with
  | nil => simp [getWalk] at h
  | cons t ts ih =>
    cases doc with
    | obj ms =>
      rw [getWalk] at h
      cases h2 : jlookup ms t with
      | some child =>
        rw [h2] at h
        exact ih child h
      | none =>
        rw [h2] at h
        injection h with he
        exact he.symm
    | arr xs =>
      rw [getWalk] at h
      cases h2 : parse_index t xs.length with
      | existing i =>
        simp only [h2] at h
        cases h3 : xs[i]? with
        | some child =>
          simp only [h3] at h
          exact ih child h
        | none =>
          simp only [h3] at h
          injection h with he
          exact he.symm
      | append =>
        simp only [h2] at h
        injection h with he
        exact he.symm
      | outOfRange j =>
        simp only [h2] at h
        injection h with he
        exact he.symm
      | malformed =>
        simp only [h2] at h
        injection h with he
        exact he.symm
    | null =>
      have hr : getWalk JNode.null (t :: ts) = Except.error JErr.notFound := rfl
      rw [hr] at h
      injection h with he
      exact he.symm
    | bool b1 =>
      have hr : getWalk (JNode.bool b1) (t :: ts) = Except.error JErr.notFound := rfl
      rw [hr] at h
      injection h with he
      exact he.symm
    | num n1 =>
      have hr : getWalk (JNode.num n1) (t :: ts) = Except.error JErr.notFound := rfl
      rw [hr] at h
      injection h with he
      exact he.symm
    | str s1 =>
      have hr : getWalk (JNode.str s1) (t :: ts) = Except.error JErr.notFound := rfl
      rw [hr] at h
      injection h with he
      exact he.symm

theorem parse_index_append_iff (tok : String) (n : Nat) :
    parse_index tok n = .append ↔ tok = "-" := by
  unfold parse_index
  by_cases h : tok = "-"
  · simp [h]
  · simp only [if_neg h]
    split_ifs <;> simp [h]

theorem setLast_error (p : JNode) (tok : String) (v : JNode) (e : JErr)
    (h : (setLast p tok v).err = some e) : setLast p tok v = ⟨p, [], some e⟩ := by
  cases p with
  | obj ms => simp [setLast] at h
  | arr xs =>
    rw [setLast] at h ⊢
    cases h2 : parse_index tok xs.length with
    | existing i =>
      simp only [h2] at h ⊢
      cases h3 : xs[i]? with
      | some old =>
        simp only [h3] at h
        exact Option.noConfusion h
      | none =>
        simp only [h3] at h ⊢
        injection h with he
        rw [he]
    | append =>
      simp only [h2] at h
      exact Option.noConfusion h
    | outOfRange j =>
      simp only [h2] at h ⊢
      injection h with he
      rw [he]
    | malformed =>
      simp only [h2] at h ⊢
      injection h with he
      rw [he]
  | null =>
    have h' : some JErr.invalidParent = some e := h
    injection h' with he
    rw [← he]
    rfl
  | bool b1 =>
    have h' : some JErr.invalidParent = some e := h
    injection h' with he
    rw [← he]
    rfl
  | num n1 =>
    have h' : some JErr.invalidParent = some e := h
    injection h' with he
    rw [← he]
    rfl
  | str s1 =>
    have h' : some JErr.invalidParent = some e := h
    injection h' with he
    rw [← he]
    rfl

theorem getWalk_nil (doc : JNode) : getWalk doc [] = .ok doc := by
  cases doc <;> rfl

theorem spliceAt_nil (doc X : JNode) : spliceAt doc [] X = X := by
  cases doc <;> rfl

theorem assignSplit_walk_error (doc : JNode) (toks : List String) (tok : String) (v : JNode)
    (e : JErr) (h : getWalk doc toks = .error e) :
    assignSplit doc toks tok v = ⟨doc, [], some e⟩ := by
  simp only [assignSplit, h]

theorem assignSplit_last_error (doc : JNode) (toks : List String) (tok : String) (v p : JNode)
    (e : JErr) (hw : getWalk doc toks = .ok p) (he : (setLast p tok v).err = some e) :
    assignSplit doc toks tok v = ⟨doc, [], some e⟩ := by
  simp only [assignSplit, hw, he]

theorem assignSplit_success (doc : JNode) (toks : List String) (tok : String) (v p : JNode)
    (hw : getWalk doc toks = .ok p) (he : (setLast p tok v).err = none) :
    assignSplit doc toks tok v =
      ⟨spliceAt doc toks (setLast p tok v).tree, (setLast p tok v).released, none⟩ := by
  simp only [assignSplit, hw, he]

theorem assign_append_eq (toks : List String) (tok : String) (doc v : JNode) :
    assign doc (toks ++ [tok]) v = assignSplit doc toks tok v := by
  induction toks generalizing doc with
  | nil =>
    simp only [List.nil_append]
    have ha : assign doc [tok] v = setLast doc tok v := by simp [assign]
    rw [ha]
    cases hse : (setLast doc tok v).err with
    | some e =>
      rw [assignSplit_last_error doc [] tok v doc e (getWalk_nil doc) hse]
      exact setLast_error doc tok v e hse
    | none =>
      rw [assignSplit_success doc [] tok v doc (getWalk_nil doc) hse]
      rw [spliceAt_nil, ← hse]
  | cons t ts ih =>
    simp only [List.cons_append]
    obtain ⟨r2, rs, hrr⟩ : ∃ r2 rs, ts ++ [tok] = r2 :: rs := by
      cases ts with
      | nil => exact ⟨tok, [], rfl⟩
      | cons a b => exact ⟨a, b ++ [tok], by simp⟩
    cases doc with
    | obj ms =>
      cases h2 : jlookup ms t with
      | none =>
        have hW : getWalk (JNode.obj ms) (t :: ts) = .error .notFound := by
          simp only [getWalk, h2]
        rw [assignSplit_walk_error _ _ _ _ _ hW, hrr]
        simp only [assign, h2]
      | some child =>
        have hW : getWalk (JNode.obj ms) (t :: ts) = getWalk child ts := by
          simp only [getWalk, h2]
        rw [hrr]
        simp only [assign, h2]
        rw [← hrr, ih child]
        cases h3 : getWalk child ts with
        | error e =>
          rw [assignSplit_walk_error child ts tok v e h3,
            assignSplit_walk_error _ _ _ _ e (hW.trans h3)]
        | ok p =>
          cases h4 : (setLast p tok v).err with
          | some e =>
            rw [assignSplit_last_error child ts tok v p e h3 h4,
              assignSplit_last_error _ _ _ _ p e (hW.trans h3) h4]
          | none =>
            rw [assignSplit_success child ts tok v p h3 h4,
              assignSplit_success _ _ _ _ p (hW.trans h3) h4]
            have hsp : spliceAt (JNode.obj ms) (t :: ts) (setLast p tok v).tree =
                JNode.obj (updateMember ms t (spliceAt child ts (setLast p tok v).tree)) := by
              simp only [spliceAt, h2]
            rw [hsp]
    | arr xs =>
      cases h2 : parse_index t xs.length with
      | existing i =>
        cases h3 : xs[i]? with
        | none =>
          have hW : getWalk (JNode.arr xs) (t :: ts) = .error .notFound := by
            simp only [getWalk, h2, h3]
          rw [assignSplit_walk_error _ _ _ _ _ hW, hrr]
          simp only [assign, h2, h3]
        | some child =>
          have hW : getWalk (JNode.arr xs) (t :: ts) = getWalk child ts := by
            simp only [getWalk, h2, h3]
          rw [hrr]
          simp only [assign, h2, h3]
          rw [← hrr, ih child]
          cases h4 : getWalk child ts with
          | error e =>
            rw [assignSplit_walk_error child ts tok v e h4,
              assignSplit_walk_error _ _ _ _ e (hW.trans h4)]
          | ok p =>
            cases h5 : (setLast p tok v).err with
            | some e =>
              rw [assignSplit_last_error child ts tok v p e h4 h5,
                assignSplit_last_error _ _ _ _ p e (hW.trans h4) h5]
            | none =>
              rw [assignSplit_success child ts tok v p h4 h5,
                assignSplit_success _ _ _ _ p (hW.trans h4) h5]
              have hsp : spliceAt (JNode.arr xs) (t :: ts) (setLast p tok v).tree =
                  JNode.arr (xs.set i (spliceAt child ts (setLast p tok v).tree)) := by
                simp only [spliceAt, h2, h3]
              rw [hsp]
      | append =>
        have hW : getWalk (JNode.arr xs) (t :: ts) = .error .notFound := by
          simp only [getWalk, h2]
        rw [assignSplit_walk_error _ _ _ _ _ hW, hrr]
        simp only [assign, h2]
      | outOfRange j =>
        have hW : getWalk (JNode.arr xs) (t :: ts) = .error .notFound := by
          simp only [getWalk, h2]
        rw [assignSplit_walk_error _ _ _ _ _ hW, hrr]
        simp only [assign, h2]
      | malformed =>
        have hW : getWalk (JNode.arr xs) (t :: ts) = .error .notFound := by
          simp only [getWalk, h2]
        rw [assignSplit_walk_error _ _ _ _ _ hW, hrr]
        simp only [assign, h2]
    | null =>
      have hW : getWalk JNode.null (t :: ts) = .error .notFound := rfl
      rw [assignSplit_walk_error _ _ _ _ _ hW, hrr]
      rfl
    | bool b1 =>
      have hW : getWalk (JNode.bool b1) (t :: ts) = .error .notFound := rfl
      rw [assignSplit_walk_error _ _ _ _ _ hW, hrr]
      rfl
    | num n1 =>
      have hW : getWalk (JNode.num n1) (t :: ts) = .error .notFound := rfl
      rw [assignSplit_walk_error _ _ _ _ _ hW, hrr]
      rfl
    | str s1 =>
      have hW : getWalk (JNode.str s1) (t :: ts) = .error .notFound := rfl
      rw [assignSplit_walk_error _ _ _ _ _ hW, hrr]
      rfl

theorem getWalk_spliceAt (toks : List String) (doc p newSub : JNode)
    (hp : getWalk doc toks = .ok p) :
    getWalk (spliceAt doc toks newSub) toks = .ok newSub := by
  induction toks generalizing doc with
  | nil =>
    rw [spliceAt_nil]
    exact getWalk_nil newSub
  | cons t ts ih =>
    cases doc with
    | obj ms =>
      cases h2 : jlookup ms t with
      | none =>
        have hW : getWalk (JNode.obj ms) (t :: ts) = .error .notFound := by
          simp only [getWalk, h2]
        rw [hW] at hp
        exact Except.noConfusion hp
      | some child =>
        have hW : getWalk (JNode.obj ms) (t :: ts) = getWalk child ts := by
          simp only [getWalk, h2]
        rw [hW] at hp
        have hsp : spliceAt (JNode.obj ms) (t :: ts) newSub =
            JNode.obj (updateMember ms t (spliceAt child ts newSub)) := by
          simp only [spliceAt, h2]
        rw [hsp]
        have hl := jlookup_updateMember_self ms t (spliceAt child ts newSub)
        have hW2 : getWalk (JNode.obj (updateMember ms t (spliceAt child ts newSub))) (t :: ts) =
            getWalk (spliceAt child ts newSub) ts := by
          simp only [getWalk, hl]
        rw [hW2]
        exact ih child hp
    | arr xs =>
      cases h2 : parse_index t xs.length with
      | existing i =>
        cases h3 : xs[i]? with
        | none =>
          have hW : getWalk (JNode.arr xs) (t :: ts) = .error .notFound := by
            simp only [getWalk, h2, h3]
          rw [hW] at hp
          exact Except.noConfusion hp
        | some child =>
          have hW : getWalk (JNode.arr xs) (t :: ts) = getWalk child ts := by
            simp only [getWalk, h2, h3]
          rw [hW] at hp
          have hsp : spliceAt (JNode.arr xs) (t :: ts) newSub =
              JNode.arr (xs.set i (spliceAt child ts newSub)) := by
            simp only [spliceAt, h2, h3]
          rw [hsp]
          obtain ⟨hlt, _⟩ := List.getElem?_eq_some_iff.mp h3
          have hpi : parse_index t (xs.set i (spliceAt child ts newSub)).length = .existing i := by
            rw [List.length_set]
            exact h2
          have hget : (xs.set i (spliceAt child ts newSub))[i]? = some (spliceAt child ts newSub) :=
            List.getElem?_set_self hlt
          have hW2 : getWalk (JNode.arr (xs.set i (spliceAt child ts newSub))) (t :: ts) =
              getWalk (spliceAt child ts newSub) ts := by
            simp only [getWalk, hpi, hget]
          rw [hW2]
          exact ih child hp
      | append =>
        have hW : getWalk (JNode.arr xs) (t :: ts) = .error .notFound := by
          simp only [getWalk, h2]
        rw [hW] at hp
        exact Except.noConfusion hp
      | outOfRange j =>
        have hW : getWalk (JNode.arr xs) (t :: ts) = .error .notFound := by
          simp only [getWalk, h2]
        rw [hW] at hp
        exact Except.noConfusion hp
      | malformed =>
        have hW : getWalk (JNode.arr xs) (t :: ts) = .error .notFound := by
          simp only [getWalk, h2]
        rw [hW] at hp
        exact Except.noConfusion hp
    | null => exact Except.noConfusion hp
    | bool b1 => exact Except.noConfusion hp
    | num n1 => exact Except.noConfusion hp
    | str s1 => exact Except.noConfusion hp

theorem setLast_released_spec (p : JNode) (tok : String) (v : JNode)
    (h : (setLast p tok v).err = none) :
    (∃ old, getWalk p [tok] = .ok old ∧ (setLast p tok v).released = [.childSlot old]) ∨
    (getWalk p [tok] = .error .notFound ∧ (setLast p tok v).released = []) := by
  cases p with
  | obj ms =>
    cases h2 : jlookup ms tok with
    | some old =>
      left
      refine ⟨old, ?_, ?_⟩
      · simp only [getWalk, h2, getWalk_nil]
      · simp only [setLast, h2]
    | none =>
      right
      refine ⟨?_, ?_⟩
      · simp only [getWalk, h2]
      · simp only [setLast, h2]
  | arr xs =>
    cases h2 : parse_index tok xs.length with
    | existing i =>
      cases h3 : xs[i]? with
      | some old =>
        left
        refine ⟨old, ?_, ?_⟩
        · simp only [getWalk, h2, h3, getWalk_nil]
        · simp only [setLast, h2, h3]
      | none =>
        rw [setLast] at h
        simp only [h2, h3] at h
        exact Option.noConfusion h
    | append =>
      right
      refine ⟨?_, ?_⟩
      · simp only [getWalk, h2]
      · simp only [setLast, h2]
    | outOfRange j =>
      rw [setLast] at h
      simp only [h2] at h
      exact Option.noConfusion h
    | malformed =>
      rw [setLast] at h
      simp only [h2] at h
      exact Option.noConfusion h
  | null =>
    have h' : (some JErr.invalidParent : Option JErr) = none := h
    exact Option.noConfusion h'
  | bool b1 =>
    have h' : (some JErr.invalidParent : Option JErr) = none := h
    exact Option.noConfusion h'
  | num n1 =>
    have h' : (some JErr.invalidParent : Option JErr) = none := h
    exact Option.noConfusion h'
  | str s1 =>
    have h' : (some JErr.invalidParent : Option JErr) = none := h
    exact Option.noConfusion h'

theorem setLast_released_child (p : JNode) (tok : String) (v : JNode) :
    ∀ r ∈ (setLast p tok v).released, ∃ old, r = .childSlot old := by
  cases p with
  | obj ms =>
    cases h2 : jlookup ms tok with
    | some old =>
      intro r hr
      simp only [setLast, h2, List.mem_singleton] at hr
      exact ⟨old, hr⟩
    | none =>
      intro r hr
      simp only [setLast, h2] at hr
      exact absurd hr (List.not_mem_nil r)
  | arr xs =>
    cases h2 : parse_index tok xs.length with
    | existing i =>
      cases h3 : xs[i]? with
      | some old =>
        intro r hr
        simp only [setLast, h2, h3, List.mem_singleton] at hr
        exact ⟨old, hr⟩
      | none =>
        intro r hr
        simp only [setLast, h2, h3] at hr
        exact absurd hr (List.not_mem_nil r)
    | append =>
      intro r hr
      simp only [setLast, h2] at hr
      exact absurd hr (List.not_mem_nil r)
    | outOfRange j =>
      intro r hr
      simp only [setLast, h2] at hr
      exact absurd hr (List.not_mem_nil r)
    | malformed =>
      intro r hr
      simp only [setLast, h2] at hr
      exact absurd hr (List.not_mem_nil r)
  | null => intro r hr; exact absurd hr (List.not_mem_nil r)
  | bool b1 => intro r hr; exact absurd hr (List.not_mem_nil r)
  | num n1 => intro r hr; exact absurd hr (List.not_mem_nil r)
  | str s1 => intro r hr; exact absurd hr (List.not_mem_nil r)

theorem setLast_getWalk (p : JNode) (tok : String) (v : JNode)
    (herr : (setLast p tok v).err = none)
    (hno : JNode.isArr p = true → tok ≠ "-") :
    getWalk (setLast p tok v).tree [tok] = .ok v := by
  cases p with
  | obj ms =>
    rw [show (setLast (JNode.obj ms) tok v).tree = JNode.obj (updateMember ms tok v) from rfl]
    simp only [getWalk, jlookup_updateMember_self, getWalk_nil]
  | arr xs =>
    cases h2 : parse_index tok xs.length with
    | existing i =>
      cases h3 : xs[i]? with
      | some old =>
        have htree : (setLast (JNode.arr xs) tok v).tree = JNode.arr (xs.set i v) := by
          simp only [setLast, h2, h3]
        rw [htree]
        obtain ⟨hlt, _⟩ := List.getElem?_eq_some_iff.mp h3
        have hpi : parse_index tok (xs.set i v).length = .existing i := by
          rw [List.length_set]
          exact h2
        have hget : (xs.set i v)[i]? = some v := List.getElem?_set_self hlt
        simp only [getWalk, hpi, hget, getWalk_nil]
      | none =>
        rw [setLast] at herr
        simp only [h2, h3] at herr
        exact Option.noConfusion herr
    | append =>
      have htok : tok = "-" := (parse_index_append_iff tok xs.length).mp h2
      exact absurd htok (hno rfl)
    | outOfRange j =>
      rw [setLast] at herr
      simp only [h2] at herr
      exact Option.noConfusion herr
    | malformed =>
      rw [setLast] at herr
      simp only [h2] at herr
      exact Option.noConfusion herr
  | null =>
    have h' : (some JErr.invalidParent : Option JErr) = none := herr
    exact Option.noConfusion h'
  | bool b1 =>
    have h' : (some JErr.invalidParent : Option JErr) = none := herr
    exact Option.noConfusion h'
  | num n1 =>
    have h' : (some JErr.invalidParent : Option JErr) = none := herr
    exact Option.noConfusion h'
  | str s1 =>
    have h' : (some JErr.invalidParent : Option JErr) = none := herr
    exact Option.noConfusion h'

theorem assign_nil (doc v : JNode) : assign doc [] v = ⟨v, [.rootSlot doc], none⟩ := by
  cases doc <;> rfl

theorem assign_error_unchanged (toks : List String) (doc v : JNode) (e : JErr)
    (h : (assign doc toks v).err = some e) :
    assign doc toks v = ⟨doc, [], some e⟩ := by
  rcases List.eq_nil_or_concat toks with h0 | ⟨ys, y, h0⟩
  · subst h0
    rw [assign_nil] at h
    exact Option.noConfusion h
  · subst h0
    rw [List.concat_eq_append] at h ⊢
    rw [assign_append_eq] at h ⊢
    cases hw : getWalk doc ys with
    | error e2 =>
      rw [assignSplit_walk_error _ _ _ _ _ hw] at h ⊢
      have h' : some e2 = some e := h
      injection h' with he
      rw [he]
    | ok p =>
      cases he2 : (setLast p y v).err with
      | some e2 =>
        rw [assignSplit_last_error _ _ _ _ p e2 hw he2] at h ⊢
        have h' : some e2 = some e := h
        injection h' with he
        rw [he]
      | none =>
        rw [assignSplit_success _ _ _ _ p hw he2] at h
        have h' : (none : Option JErr) = some e := h
        exact Option.noConfusion h'

theorem stepToken_no_slash (s : Step) : '/' ∉ (stepToken s).toList := by
  cases s with
  | key k => exact escapeChars_no_slash k.toList
  | idx i =>
    intro hmem
    exact absurd (natDigits_all_digits i '/' hmem) (by decide)

theorem unescape_stepToken (s : Step) :
    unescapeToken (stepToken s).toList = some (stepString s).toList := by
  cases s with
  | key k => exact unescape_escape k.toList
  | idx i =>
    refine unescape_no_tilde _ ?_
    intro c hc
    exact ((isDigitCh_ne c (natDigits_all_digits i c hc)).2).1

theorem splitSegs_pathChars (s : Step) (K : List Step) :
    splitSegs ((stepToken s).toList ++ pathChars K) =
      (stepToken s).toList :: (K.map fun t => (stepToken t).toList) := by
  induction K generalizing s with
  | nil =>
    rw [pathChars, List.append_nil, splitSegs_no_slash _ (stepToken_no_slash s)]
    simp
  | cons s2 K2 ih =>
    rw [pathChars, splitSegs_append_slash _ _ (stepToken_no_slash s), ih s2]
    simp

theorem mapM_unescape_tokens (K : List Step) :
    (K.map fun t => (stepToken t).toList).mapM
        (fun seg => (unescapeToken seg).map String.mk) =
      some (K.map stepString) := by
  induction K with
  | nil => rfl
  | cons s K2 ih =>
    rw [List.map_cons, List.mapM_cons, unescape_stepToken s, ih]
    rfl

theorem tokenize_path_of (K : List Step) :
    tokenize (path_of K) = some (K.map stepString) := by
  cases K with
  | nil => rfl
  | cons s K2 =>
    have htl : (path_of (s :: K2)).toList = '/' :: ((stepToken s).toList ++ pathChars K2) := rfl
    rw [tokenize]
    rw [htl]
    show (splitSegs ((stepToken s).toList ++ pathChars K2)).mapM
        (fun seg => (unescapeToken seg).map String.mk) = some ((s :: K2).map stepString)
    rw [splitSegs_pathChars s K2]
    rw [show (stepToken s).toList :: (K2.map fun t => (stepToken t).toList) =
      ((s :: K2).map fun t => (stepToken t).toList) from rfl]
    exact mapM_unescape_tokens (s :: K2)

theorem manualIndex_getWalk (K : List Step) (doc node : JNode)
    (h : manualIndex doc K = some node)
    (hb : ∀ i, Step.idx i ∈ K → i ≤ USIZE_MAX) :
    getWalk doc (K.map stepString) = .ok node := by
  induction K generalizing doc with
  | nil =>
    have hd : manualIndex doc [] = some doc := by cases doc <;> rfl
    rw [hd] at h
    injection h with he
    rw [List.map_nil, he]
    exact getWalk_nil node
  | cons s K2 ih =>
    cases s with
    | key k =>
      cases doc with
      | obj ms =>
        cases h2 : jlookup ms k with
        | some child =>
          simp only [manualIndex, h2] at h
          rw [List.map_cons]
          have hW : getWalk (JNode.obj ms) (stepString (Step.key k) :: K2.map stepString) =
              getWalk child (K2.map stepString) := by
            simp only [stepString, getWalk, h2]
          rw [hW]
          exact ih child h (fun j hj => hb j (List.mem_cons_of_mem _ hj))
        | none =>
          simp only [manualIndex, h2] at h
          exact Option.noConfusion h
      | null =>
        have h' : (none : Option JNode) = some node := h
        exact Option.noConfusion h'
      | bool b1 =>
        have h' : (none : Option JNode) = some node := h
        exact Option.noConfusion h'
      | num n1 =>
        have h' : (none : Option JNode) = some node := h
        exact Option.noConfusion h'
      | str s1 =>
        have h' : (none : Option JNode) = some node := h
        exact Option.noConfusion h'
      | arr xs =>
        have h' : (none : Option JNode) = some node := h
        exact Option.noConfusion h'
    | idx i =>
      cases doc with
      | arr xs =>
        cases h2 : xs[i]? with
        | some child =>
          simp only [manualIndex, h2] at h
          rw [List.map_cons]
          have hbi : i ≤ USIZE_MAX := hb i (List.mem_cons_self _ _)
          obtain ⟨hlt, _⟩ := List.getElem?_eq_some_iff.mp h2
          have hpi : parse_index (stepString (Step.idx i)) xs.length = .existing i := by
            show parse_index (String.mk (natDigits i)) xs.length = .existing i
            rw [parse_index_natDigits i xs.length hbi, if_pos hlt]
          have hW : getWalk (JNode.arr xs) (stepString (Step.idx i) :: K2.map stepString) =
              getWalk child (K2.map stepString) := by
            simp only [getWalk, hpi, h2]
          rw [hW]
          exact ih child h (fun j hj => hb j (List.mem_cons_of_mem _ hj))
        | none =>
          simp only [manualIndex, h2] at h
          exact Option.noConfusion h
      | null =>
        have h' : (none : Option JNode) = some node := h
        exact Option.noConfusion h'
      | bool b1 =>
        have h' : (none : Option JNode) = some node := h
        exact Option.noConfusion h'
      | num n1 =>
        have h' : (none : Option JNode) = some node := h
        exact Option.noConfusion h'
      | str s1 =>
        have h' : (none : Option JNode) = some node := h
        exact Option.noConfusion h'
      | obj ms =>
        have h' : (none : Option JNode) = some node := h
        exact Option.noConfusion h'

theorem unescapeToken_cons (c : Char) (rest : List Char) :
    unescapeToken (c :: rest) =
      if c = '~' then unescTail rest
      else (unescapeToken rest).map (fun r => c :: r) := by
  rw [unescapeToken]

theorem unescTail_cons (d : Char) (rest2 : List Char) :
    unescTail (d :: rest2) =
      if d = '0' then (unescapeToken rest2).map (fun r => '~' :: r)
      else if d = '1' then (unescapeToken rest2).map (fun r => '/' :: r)
      else none := by
  rw [unescTail]

theorem unescape_trailing_tilde_aux (n : Nat) :
    ∀ cs : List Char, cs.length ≤ n →
      unescapeToken (cs ++ ['~']) = none ∧ unescTail (cs ++ ['~']) = none := by
  induction n with
  | zero =>
    intro cs h
    have hnil : cs = [] := List.eq_nil_of_length_eq_zero (Nat.le_zero.mp h)
    subst hnil
    exact ⟨by decide, by decide⟩
  | succ n ihn =>
    intro cs h
    cases cs with
    | nil => exact ⟨by decide, by decide⟩
    | cons c rest =>
      have hr : rest.length ≤ n := by
        simp only [List.length_cons] at h
        omega
      obtain ⟨ih1, ih2⟩ := ihn rest hr
      constructor
      · rw [List.cons_append, unescapeToken_cons]
        by_cases hc : c = '~'
        · rw [if_pos hc]
          exact ih2
        · rw [if_neg hc, ih1]
          rfl
      · rw [List.cons_append, unescTail_cons]
        by_cases h0 : c = '0'
        · rw [if_pos h0, ih1]
          rfl
        · rw [if_neg h0]
          by_cases h1 : c = '1'
          · rw [if_pos h1, ih1]
            rfl
          · rw [if_neg h1]

theorem unescape_trailing_tilde (cs : List Char) : unescapeToken (cs ++ ['~']) = none :=
  (unescape_trailing_tilde_aux cs.length cs le_rfl).1

theorem renderSpec_percent (rest2 : List Char) (args : List FmtArg) :
    renderSpec ('%' :: rest2) args = (renderFmt rest2 args).map (fun r => '%' :: r) := by
  cases args with
  | nil => rw [renderSpec, if_pos rfl] <;> (intro _ _ hcon; cases hcon)
  | cons a args2 =>
    cases a with
    | num n => rw [renderSpec, if_pos rfl]
    | str t => rw [renderSpec, if_pos rfl]

theorem renderFmt_escPercent (cs : List Char) (args : List FmtArg) :
    renderFmt (escPercent cs) args = some cs := by
  induction cs with
  | nil => rfl
  | cons c rest ih =>
    by_cases h : c = '%'
    · subst h
      rw [escPercent, if_pos rfl]
      rw [renderFmt, if_pos rfl]
      rw [renderSpec_percent, ih]
      rfl
    · rw [escPercent, if_neg h]
      rw [renderFmt, if_neg h]
      rw [ih]
      rfl

theorem renderFmt_no_percent (cs : List Char) (args : List FmtArg) (h : '%' ∉ cs) :
    renderFmt cs args = some cs := by
  induction cs with
  | nil => rfl
  | cons c rest ih =>
    have hc : c ≠ '%' := fun hh => h (hh ▸ List.mem_cons_self c rest)
    have hr : '%' ∉ rest := fun hh => h (List.mem_cons_of_mem c hh)
    rw [renderFmt, if_neg hc, ih hr]
    rfl

/-- C1: pointer_get with the empty path returns the document itself, and
for every key/index sequence K reachable in D (indices within the
platform index range), pointer_get applied to the pointer spelling of
K returns exactly the node obtained by manually indexing through
mappings and arrays along K. -/
theorem C1_get_identity_and_manual_indexing :
    (∀ D : JNode, pointer_get D "" = .ok D) ∧
    (∀ (D node : JNode) (K : List Step),
      manualIndex D K = some node →
      (∀ i, Step.idx i ∈ K → i ≤ USIZE_MAX) →
      pointer_get D (path_of K) = .ok node) := by
  constructor
  · intro D
    have ht : tokenize "" = some [] := by decide
    simp only [pointer_get, ht]
    exact getWalk_nil D
  · intro D node K h hb
    simp only [pointer_get, tokenize_path_of K]
    exact manualIndex_getWalk K D node h hb

/-- Witness for C1 at a concrete document and key/index sequence. -/
theorem C1_witness :
    pointer_get (JNode.obj [("a", JNode.arr [JNode.num 5, JNode.num 7])]) "" =
      .ok (JNode.obj [("a", JNode.arr [JNode.num 5, JNode.num 7])]) ∧
    pointer_get (JNode.obj [("a", JNode.arr [JNode.num 5, JNode.num 7])])
      (path_of [Step.key "a", Step.idx 1]) = .ok (JNode.num 7) :=
  ⟨C1_get_identity_and_manual_indexing.1 _,
   C1_get_identity_and_manual_indexing.2 _ _ [Step.key "a", Step.idx 1]
     (by decide)
     (by
       intro i hi
       simp only [List.mem_cons, List.not_mem_nil, or_false] at hi
       rcases hi with hi | hi
       · exact absurd hi (by simp)
       · injection hi with he
         subst he
         decide)⟩

/-- C3: every failing pointer_set (malformed pointer, failed walk, bad
last token, or non-container parent) leaves the tree unmodified and
performs no release, so ownership of the supplied value is not
transferred. -/
theorem C3_set_failure_no_mutation (doc v : JNode) (path : String) (e : JErr)
    (h : (pointer_set doc path v).err = some e) :
    (pointer_set doc path v).tree = doc ∧ (pointer_set doc path v).released = [] := by
  cases ht : tokenize path with
  | none => simp [pointer_set, ht]
  | some toks =>
    simp only [pointer_set, ht] at h ⊢
    rw [assign_error_unchanged toks doc v e h]
    exact ⟨rfl, rfl⟩

/-- Witness for C3: setting through a scalar root fails and changes
nothing. -/
theorem C3_witness :
    (pointer_set JNode.null "/a" (JNode.num 1)).tree = JNode.null ∧
    (pointer_set JNode.null "/a" (JNode.num 1)).released = [] :=
  C3_set_failure_no_mutation JNode.null (JNode.num 1) "/a" .invalidParent (by decide)

/-- C4: the empty-path pointer_set releases exactly one reference — the
root slot's — rebinds the root to the supplied value and succeeds;
and no pointer_set through a nonempty token list ever releases a root
slot reference (only displaced children are released). -/
theorem C4_root_replacement :
    (∀ doc v : JNode, pointer_set doc "" v = ⟨v, [.rootSlot doc], none⟩) ∧
    (∀ (doc v old : JNode) (path : String) (toks : List String),
      tokenize path = some toks → toks ≠ [] →
      Release.rootSlot old ∉ (pointer_set doc path v).released) := by
  constructor
  · intro doc v
    have ht : tokenize "" = some [] := by decide
    simp only [pointer_set, ht]
    exact assign_nil doc v
  · intro doc v old path toks ht hne hmem
    simp only [pointer_set, ht] at hmem
    rcases List.eq_nil_or_concat toks with rfl | ⟨ys, y, rfl⟩
    · exact hne rfl
    · rw [List.concat_eq_append, assign_append_eq] at hmem
      cases hw : getWalk doc ys with
      | error e =>
        rw [assignSplit_walk_error _ _ _ _ _ hw] at hmem
        exact absurd hmem (List.not_mem_nil _)
      | ok p =>
        cases he : (setLast p y v).err with
        | some e =>
          rw [assignSplit_last_error _ _ _ _ p e hw he] at hmem
          exact absurd hmem (List.not_mem_nil _)
        | none =>
          rw [assignSplit_success _ _ _ _ p hw he] at hmem
          obtain ⟨o2, heq⟩ := setLast_released_child p y v _ hmem
          exact Release.noConfusion heq

/-- Witness for C4 at a concrete root replacement and a concrete
one-token set. -/
theorem C4_witness :
    pointer_set (JNode.num 1) "" (JNode.num 2) =
      ⟨JNode.num 2, [.rootSlot (JNode.num 1)], none⟩ ∧
    Release.rootSlot JNode.null ∉
      (pointer_set (JNode.obj []) "/k" (JNode.num 2)).released :=
  ⟨C4_root_replacement.1 _ _,
   C4_root_replacement.2 _ _ _ "/k" ["k"] (by decide) (by decide)⟩

/-- C2: on every successful pointer_set with at least one token, the
released references are exactly one displaced child (the node the
full path previously resolved to) when the slot was occupied, and
nothing when a new member is inserted or an element appended; no root
slot reference is ever released; the walk of the leading tokens
yields a parent into which the value lands — at the last token's slot
for a mapping key or an existing index, or as a pushed new last
element for the append token. -/
theorem C2_set_ownership_transfer (doc v : JNode) (toks : List String) (tok : String)
    (h : (assign doc (toks ++ [tok]) v).err = none) :
    ((∃ old, getWalk doc (toks ++ [tok]) = .ok old ∧
        (assign doc (toks ++ [tok]) v).released = [.childSlot old]) ∨
      (getWalk doc (toks ++ [tok]) = .error .notFound ∧
        (assign doc (toks ++ [tok]) v).released = [])) ∧
    (∀ old, Release.rootSlot old ∉ (assign doc (toks ++ [tok]) v).released) ∧
    (∃ parent, getWalk doc toks = .ok parent ∧
      (∀ xs, parent = .arr xs → tok = "-" →
        getWalk (assign doc (toks ++ [tok]) v).tree toks = .ok (.arr (xs ++ [v]))) ∧
      ((JNode.isArr parent = true → tok ≠ "-") →
        getWalk (assign doc (toks ++ [tok]) v).tree (toks ++ [tok]) = .ok v)) := by
  rw [assign_append_eq] at h ⊢
  cases hw : getWalk doc toks with
  | error e =>
    rw [assignSplit_walk_error _ _ _ _ _ hw] at h
    have h' : some e = none := h
    exact Option.noConfusion h'
  | ok p =>
    cases he : (setLast p tok v).err with
    | some e =>
      rw [assignSplit_last_error _ _ _ _ p e hw he] at h
      have h' : some e = none := h
      exact Option.noConfusion h'
    | none =>
      rw [assignSplit_success _ _ _ _ p hw he]
      have hga : getWalk doc (toks ++ [tok]) = getWalk p [tok] := by
        rw [getWalk_append, hw]
      refine ⟨?_, ?_, ⟨p, rfl, ?_, ?_⟩⟩
      · rcases setLast_released_spec p tok v he with ⟨old, hold, hrels⟩ | ⟨hnf, hrels⟩
        · left
          refine ⟨old, ?_, ?_⟩
          · rw [hga]
            exact hold
          · exact hrels
        · right
          refine ⟨?_, ?_⟩
          · rw [hga]
            exact hnf
          · exact hrels
      · intro old hmem
        have hmem2 : Release.rootSlot old ∈ (setLast p tok v).released := hmem
        obtain ⟨o2, heq⟩ := setLast_released_child p tok v _ hmem2
        exact Release.noConfusion heq
      · intro xs hxs htok
        subst hxs
        subst htok
        have hpi : parse_index "-" xs.length = .append := (parse_index_append_iff _ _).mpr rfl
        have htree : (setLast (JNode.arr xs) "-" v).tree = JNode.arr (xs ++ [v]) := by
          simp only [setLast, hpi]
        show getWalk (spliceAt doc toks (setLast (JNode.arr xs) "-" v).tree) toks =
          .ok (.arr (xs ++ [v]))
        rw [htree]
        exact getWalk_spliceAt toks doc (JNode.arr xs) _ hw
      · intro hno
        show getWalk (spliceAt doc toks (setLast p tok v).tree) (toks ++ [tok]) = .ok v
        rw [getWalk_append, getWalk_spliceAt toks doc p ((setLast p tok v).tree) hw]
        exact setLast_getWalk p tok v he hno

/-- Witness for C2: replacing an existing member of a one-member mapping. -/
theorem C2_witness :
    ((∃ old, getWalk (JNode.obj [("a", JNode.num 1)]) ["a"] = .ok old ∧
        (assign (JNode.obj [("a", JNode.num 1)]) ["a"] (JNode.num 2)).released =
          [.childSlot old]) ∨
      (getWalk (JNode.obj [("a", JNode.num 1)]) ["a"] = .error .notFound ∧
        (assign (JNode.obj [("a", JNode.num 1)]) ["a"] (JNode.num 2)).released = [])) ∧
    (∀ old, Release.rootSlot old ∉
        (assign (JNode.obj [("a", JNode.num 1)]) ["a"] (JNode.num 2)).released) ∧
    (∃ parent, getWalk (JNode.obj [("a", JNode.num 1)]) [] = .ok parent ∧
      (∀ xs, parent = .arr xs → "a" = "-" →
        getWalk (assign (JNode.obj [("a", JNode.num 1)]) ["a"] (JNode.num 2)).tree [] =
          .ok (.arr (xs ++ [JNode.num 2]))) ∧
      ((JNode.isArr parent = true → "a" ≠ "-") →
        getWalk (assign (JNode.obj [("a", JNode.num 1)]) ["a"] (JNode.num 2)).tree ["a"] =
          .ok (JNode.num 2))) :=
  C2_set_ownership_transfer (JNode.obj [("a", JNode.num 1)]) (JNode.num 2) [] "a" (by decide)

/-- C5 counterexample: the claim fails as stated for a path whose last
token is the append token.  With D mapping "arr" to the array [1, 2]
and the two-token path whose tokens are "arr" and the append token,
pointer_set succeeds (its parent exists), but the subsequent
pointer_get of the same path fails with NotFound instead of
returning 3. -/
theorem C5_counterexample :
    (pointer_set (JNode.obj [("arr", JNode.arr [JNode.num 1, JNode.num 2])]) "/arr/-"
        (JNode.num 3)).err = none ∧
    pointer_get (pointer_set (JNode.obj [("arr", JNode.arr [JNode.num 1, JNode.num 2])]) "/arr/-"
        (JNode.num 3)).tree "/arr/-" = .error .notFound := by
  decide

/-- C5 (amended): for every path whose parent container exists and whose
last token is not the array-append token when that parent is an
array, a successful pointer_set followed by pointer_get of the same
path returns exactly the value that was set. -/
theorem C5_set_then_get_round_trip (doc v parent : JNode) (path : String)
    (toks : List String) (tok : String)
    (ht : tokenize path = some (toks ++ [tok]))
    (hp : getWalk doc toks = .ok parent)
    (hno : JNode.isArr parent = true → tok ≠ "-")
    (hok : (pointer_set doc path v).err = none) :
    pointer_get (pointer_set doc path v).tree path = .ok v := by
  simp only [pointer_set, ht] at hok ⊢
  simp only [pointer_get, ht]
  rw [assign_append_eq] at hok ⊢
  cases he : (setLast parent tok v).err with
  | some e =>
    rw [assignSplit_last_error _ _ _ _ parent e hp he] at hok
    have h' : some e = none := hok
    exact Option.noConfusion h'
  | none =>
    rw [assignSplit_success _ _ _ _ parent hp he]
    show getWalk (spliceAt doc toks (setLast parent tok v).tree) (toks ++ [tok]) = .ok v
    rw [getWalk_append, getWalk_spliceAt toks doc parent ((setLast parent tok v).tree) hp]
    exact setLast_getWalk parent tok v he hno

/-- Witness for the amended C5 at a concrete member replacement. -/
theorem C5_witness :
    pointer_get (pointer_set (JNode.obj [("a", JNode.num 1)]) "/a" (JNode.num 2)).tree "/a" =
      .ok (JNode.num 2) :=
  C5_set_then_get_round_trip (JNode.obj [("a", JNode.num 1)]) (JNode.num 2)
    (JNode.obj [("a", JNode.num 1)]) "/a" [] "a" (by decide) (by decide) (by decide) (by decide)

/-- C6: the Array-Index Validator classifies a token against an array
length n as Existing(i) exactly when it is a well-formed all-digit
numeral denoting i (no redundant leading zero, within the platform
index range) with i below n, as Append exactly when it is the literal
minus token, as OutOfRange exactly when it is such a numeral with i
at least n, and as Malformed exactly when (not being the minus token)
it is empty, contains a non-digit, has a redundant leading zero, or
overflows the platform index range; and the append token is honoured
only as the last token of a set path — a get rejects it and a set
rejects it in any non-last position. -/
theorem C6_parse_index_classification :
    (∀ (tok : String) (n i : Nat),
      parse_index tok n = .existing i ↔
        (tok ≠ "-" ∧ tok.toList ≠ [] ∧ tok.toList.all isDigitCh = true ∧
          ¬(1 < tok.toList.length ∧ tok.toList.head? = some '0') ∧
          digitsVal tok.toList ≤ USIZE_MAX ∧ i = digitsVal tok.toList ∧ i < n)) ∧
    (∀ (tok : String) (n : Nat), parse_index tok n = .append ↔ tok = "-") ∧
    (∀ (tok : String) (n i : Nat),
      parse_index tok n = .outOfRange i ↔
        (tok ≠ "-" ∧ tok.toList ≠ [] ∧ tok.toList.all isDigitCh = true ∧
          ¬(1 < tok.toList.length ∧ tok.toList.head? = some '0') ∧
          digitsVal tok.toList ≤ USIZE_MAX ∧ i = digitsVal tok.toList ∧ n ≤ i)) ∧
    (∀ (tok : String) (n : Nat),
      parse_index tok n = .malformed ↔
        (tok ≠ "-" ∧ (tok.toList = [] ∨ ¬ tok.toList.all isDigitCh = true ∨
          (1 < tok.toList.length ∧ tok.toList.head? = some '0') ∨
          USIZE_MAX < digitsVal tok.toList))) ∧
    (∀ (xs : List JNode) (rest : List String),
      getWalk (.arr xs) ("-" :: rest) = .error .notFound) ∧
    (∀ (xs : List JNode) (t2 : String) (rest : List String) (v : JNode),
      assign (.arr xs) ("-" :: t2 :: rest) v = ⟨.arr xs, [], some .notFound⟩) ∧
    (∀ (xs : List JNode) (v : JNode),
      setLast (.arr xs) "-" v = ⟨.arr (xs ++ [v]), [], none⟩) := by
  have hpi : ∀ n : Nat, parse_index "-" n = .append :=
    fun n => (parse_index_append_iff "-" n).mpr rfl
  refine ⟨?_, ?_, ?_, ?_, ?_, ?_, ?_⟩
  · intro tok n i
    unfold parse_index
    split_ifs with h1 h2 h3 h4 h5 h6 <;> simp_all [List.isEmpty_iff, Nat.not_lt]
    omega
  · intro tok n
    exact parse_index_append_iff tok n
  · intro tok n i
    unfold parse_index
    split_ifs with h1 h2 h3 h4 h5 h6 <;> simp_all [List.isEmpty_iff, Nat.not_lt]
    omega
  · intro tok n
    unfold parse_index
    split_ifs with h1 h2 h3 h4 h5 h6 <;> simp_all [List.isEmpty_iff, Nat.not_lt]
  · intro xs rest
    simp only [getWalk, hpi xs.length]
  · intro xs t2 rest v
    simp only [assign, hpi xs.length]
  · intro xs v
    simp only [setLast, hpi xs.length]

/-- C7: every failure to descend during a get — a missing mapping key, an
array token that is not a valid existing index (malformed, out of
range, or the append token), or remaining tokens against a
non-container node — makes the whole call fail with NotFound, the
only error the get-walk ever produces; and no partial-success value
exists: a resolved path resolves through every intermediate prefix. -/
theorem C7_get_failures_are_notFound :
    (∀ (doc : JNode) (toks : List String) (e : JErr),
      getWalk doc toks = .error e → e = .notFound) ∧
    (∀ (ms : List (String × JNode)) (tok : String) (rest : List String),
      jlookup ms tok = none → getWalk (.obj ms) (tok :: rest) = .error .notFound) ∧
    (∀ (xs : List JNode) (tok : String) (rest : List String),
      (∀ i, parse_index tok xs.length ≠ .existing i) →
      getWalk (.arr xs) (tok :: rest) = .error .notFound) ∧
    (∀ (doc : JNode) (tok : String) (rest : List String),
      JNode.isObj doc = false → JNode.isArr doc = false →
      getWalk doc (tok :: rest) = .error .notFound) ∧
    (∀ (doc r : JNode) (a b : List String),
      getWalk doc (a ++ b) = .ok r →
      ∃ m, getWalk doc a = .ok m ∧ getWalk m b = .ok r) := by
  refine ⟨fun doc toks e h => getWalk_error_notFound toks doc e h, ?_, ?_, ?_, ?_⟩
  · intro ms tok rest h
    simp only [getWalk, h]
  · intro xs tok rest h
    cases h2 : parse_index tok xs.length with
    | existing i => exact absurd h2 (h i)
    | append => simp only [getWalk, h2]
    | outOfRange j => simp only [getWalk, h2]
    | malformed => simp only [getWalk, h2]
  · intro doc tok rest h1 h2
    cases doc with
    | obj ms => simp [JNode.isObj] at h1
    | arr xs => simp [JNode.isArr] at h2
    | null => rfl
    | bool b1 => rfl
    | num n1 => rfl
    | str s1 => rfl
  · intro doc r a b h
    rw [getWalk_append] at h
    cases hw : getWalk doc a with
    | error e =>
      rw [hw] at h
      have h' : (Except.error e : Except JErr JNode) = .ok r := h
      exact Except.noConfusion h'
    | ok m =>
      rw [hw] at h
      have h' : getWalk m b = .ok r := h
      exact ⟨m, rfl, h'⟩

/-- Witness for C7 across its cases: a get-walk error is NotFound, a
missing key fails, an out-of-range array index fails, a scalar with
remaining tokens fails, and a resolved path resolves through its
prefix. -/
theorem C7_witness :
    (JErr.notFound : JErr) = .notFound ∧
    getWalk (JNode.obj []) ["x"] = .error .notFound ∧
    getWalk (JNode.arr [JNode.num 1, JNode.num 2]) ["5"] = .error .notFound ∧
    getWalk (JNode.num 3) ["x"] = .error .notFound ∧
    (∃ m, getWalk (JNode.obj [("a", JNode.num 1)]) ["a"] = .ok m ∧
      getWalk m [] = .ok (JNode.num 1)) :=
  ⟨C7_get_failures_are_notFound.1 (JNode.num 3) ["x"] .notFound (by decide),
   C7_get_failures_are_notFound.2.1 [] "x" [] (by decide),
   C7_get_failures_are_notFound.2.2.1 [JNode.num 1, JNode.num 2] "5" []
     (by
       intro i h
       have h2 : parse_index "5" ([JNode.num 1, JNode.num 2] : List JNode).length =
           .outOfRange 5 := by decide
       rw [h2] at h
       exact IndexOutcome.noConfusion h),
   C7_get_failures_are_notFound.2.2.2.1 (JNode.num 3) "x" [] (by decide) (by decide),
   C7_get_failures_are_notFound.2.2.2.2 (JNode.obj [("a", JNode.num 1)]) (JNode.num 1)
     ["a"] [] (by decide)⟩

/-- C8: tokenization splits on slashes and unescapes each segment in one
left-to-right pass (tilde-one to slash, tilde-zero to tilde), so an
escaped key tokenizes back to the original key — the member "a/b" is
addressed by the pointer whose characters are slash, a, tilde, one, b
— while a tilde followed by anything other than zero or one, or a
trailing tilde, is a malformed-pointer error. -/
theorem C8_tokenize_escaping :
    (∀ k : String, tokenize (String.mk ('/' :: escapeChars k.toList)) = some [k]) ∧
    tokenize "/a~1b" = some ["a/b"] ∧
    tokenize "/a~0" = some ["a~"] ∧
    (∀ (c : Char) (rest : List Char), c ≠ '0' → c ≠ '1' →
      unescapeToken ('~' :: c :: rest) = none) ∧
    (∀ cs : List Char, unescapeToken (cs ++ ['~']) = none) ∧
    (∀ a cs : List Char, '/' ∉ a → splitSegs (a ++ '/' :: cs) = a :: splitSegs cs) := by
  refine ⟨?_, by decide, by decide, ?_, unescape_trailing_tilde, splitSegs_append_slash⟩
  · intro k
    show (splitSegs (escapeChars k.toList)).mapM
        (fun seg => (unescapeToken seg).map String.mk) = some [k]
    rw [splitSegs_no_slash _ (escapeChars_no_slash k.toList)]
    have hu : (unescapeToken (escapeChars k.toList)).map String.mk = some k := by
      rw [unescape_escape]
      rfl
    rw [List.mapM_cons, hu]
    rfl
  · intro c rest h0 h1
    rw [unescapeToken_cons, if_pos rfl, unescTail_cons, if_neg h0, if_neg h1]

/-- Witness for C8: the key "a/b" round-trips through escaping and
tokenization, a bad escape pair is rejected, and splitting separates
a slash-free segment from the rest. -/
theorem C8_witness :
    tokenize (String.mk ('/' :: escapeChars "a/b".toList)) = some ["a/b"] ∧
    unescapeToken ('~' :: 'x' :: []) = none ∧
    splitSegs ("ab".toList ++ '/' :: "c".toList) = "ab".toList :: splitSegs "c".toList :=
  ⟨C8_tokenize_escaping.1 "a/b",
   C8_tokenize_escaping.2.2.2.1 'x' [] (by decide) (by decide),
   C8_tokenize_escaping.2.2.2.2.2 "ab".toList "c".toList (by decide)⟩

/-- C9 counterexample: with a document whose member names are the
one-character percent string and the two-character double-percent
string, the formatted get of the format string slash-percent-percent
with no arguments renders the path slash-percent and resolves it,
while the plain get applied to that rendered string re-renders it,
fails formatting on the lone percent, and returns FormatError — so
the formatted variant does not equal the plain operation on the
rendered path. -/
theorem C9_counterexample :
    cvi_json_pointer_getf (JNode.obj [("%", JNode.num 7)]) "/%%" [] = .ok (JNode.num 7) ∧
    renderFmt "/%%".toList [] = some "/%".toList ∧
    cvi_json_pointer_get (JNode.obj [("%", JNode.num 7)]) "/%" [] = .error .formatError := by
  decide

/-- C9 (amended): when rendering succeeds, the formatted variants equal
the pointer resolver applied to the rendered path string — and equal
the plain operations on that string whenever it contains no percent
character (the plain operations re-render their path argument); when
rendering fails, the call returns FormatError before any tree access:
the tree is returned unmodified and nothing is released. -/
theorem C9_formatted_variants (obj v : JNode) (fmt : String) (args : List FmtArg)
    (cs : List Char) :
    (renderFmt fmt.toList args = some cs →
      cvi_json_pointer_getf obj fmt args = pointer_get obj (String.mk cs) ∧
      cvi_json_pointer_setf obj v fmt args = pointer_set obj (String.mk cs) v ∧
      ('%' ∉ cs →
        cvi_json_pointer_getf obj fmt args = cvi_json_pointer_get obj (String.mk cs) [] ∧
        cvi_json_pointer_setf obj v fmt args = cvi_json_pointer_set obj (String.mk cs) v [])) ∧
    (renderFmt fmt.toList args = none →
      cvi_json_pointer_getf obj fmt args = .error .formatError ∧
      cvi_json_pointer_setf obj v fmt args = ⟨obj, [], some .formatError⟩) := by
  constructor
  · intro h
    have hg : cvi_json_pointer_getf obj fmt args = pointer_get obj (String.mk cs) := by
      simp only [cvi_json_pointer_getf, h]
    have hs : cvi_json_pointer_setf obj v fmt args = pointer_set obj (String.mk cs) v := by
      simp only [cvi_json_pointer_setf, h]
    refine ⟨hg, hs, ?_⟩
    intro hnp
    have hr : renderFmt (String.mk cs).toList [] = some cs := renderFmt_no_percent cs [] hnp
    constructor
    · rw [hg]
      simp only [cvi_json_pointer_get, hr]
    · rw [hs]
      simp only [cvi_json_pointer_set, hr]
  · intro h
    constructor
    · simp only [cvi_json_pointer_getf, h]
    · simp only [cvi_json_pointer_setf, h]

/-- Witness for the amended C9 at a rendered path with and without
percent characters, and at a failing rendering. -/
theorem C9_witness :
    (cvi_json_pointer_getf (JNode.obj [("a", JNode.num 1)]) "/a" [] =
        pointer_get (JNode.obj [("a", JNode.num 1)]) (String.mk "/a".toList) ∧
      cvi_json_pointer_setf (JNode.obj [("a", JNode.num 1)]) (JNode.num 2) "/a" [] =
        pointer_set (JNode.obj [("a", JNode.num 1)]) (String.mk "/a".toList) (JNode.num 2) ∧
      ('%' ∉ "/a".toList →
        cvi_json_pointer_getf (JNode.obj [("a", JNode.num 1)]) "/a" [] =
          cvi_json_pointer_get (JNode.obj [("a", JNode.num 1)]) (String.mk "/a".toList) [] ∧
        cvi_json_pointer_setf (JNode.obj [("a", JNode.num 1)]) (JNode.num 2) "/a" [] =
          cvi_json_pointer_set (JNode.obj [("a", JNode.num 1)]) (String.mk "/a".toList)
            (JNode.num 2) [])) ∧
    (cvi_json_pointer_getf (JNode.obj [("a", JNode.num 1)]) "/%" [] = .error .formatError ∧
      cvi_json_pointer_setf (JNode.obj [("a", JNode.num 1)]) (JNode.num 2) "/%" [] =
        ⟨JNode.obj [("a", JNode.num 1)], [], some .formatError⟩) :=
  ⟨(C9_formatted_variants (JNode.obj [("a", JNode.num 1)]) (JNode.num 2) "/a" []
      "/a".toList).1 (by decide),
   (C9_formatted_variants (JNode.obj [("a", JNode.num 1)]) (JNode.num 2) "/%" []
      "/%".toList).2 (by decide)⟩

/-- C10: the path argument of the plain cvi_json_pointer_get and
cvi_json_pointer_set is itself a printf-style format string whose
arguments follow the res or value parameter, so a literal percent in
a path must be doubled even without the f-variants: a
percent-escaped path resolves as the unescaped one, a percent-d in a
plain path consumes a numeric argument, and a lone trailing percent
makes the plain get fail with FormatError. -/
theorem C10_plain_path_is_printf_format (obj v : JNode) (cs : List Char) (n : Int) :
    cvi_json_pointer_get obj (String.mk (escPercent cs)) [] = pointer_get obj (String.mk cs) ∧
    cvi_json_pointer_set obj (String.mk (escPercent cs)) v [] =
      pointer_set obj (String.mk cs) v ∧
    cvi_json_pointer_get obj "/foo/%d" [.num n] =
      pointer_get obj (String.mk ("/foo/".toList ++ intChars n)) ∧
    cvi_json_pointer_get obj "/a%" [] = .error .formatError := by
  refine ⟨?_, ?_, ?_, rfl⟩
  · have htl : (String.mk (escPercent cs)).toList = escPercent cs := rfl
    simp only [cvi_json_pointer_get, htl, renderFmt_escPercent]
  · have htl : (String.mk (escPercent cs)).toList = escPercent cs := rfl
    simp only [cvi_json_pointer_set, htl, renderFmt_escPercent]
  · have hr : renderFmt "/foo/%d".toList [FmtArg.num n] =
        some ("/foo/".toList ++ (intChars n ++ [])) := rfl
    rw [List.append_nil] at hr
    simp only [cvi_json_pointer_get, hr]
